import Mathlib

/-!
Verification of the `dagrt` repository slice: the shallow embedding below
translates `src/dagrt/vm/utils.py` (namespace classification, unique-name
generation, argument resolution) and, where the execution core is only
visible through its tests (`src/test/test_codegen_python.py`), models the
program/state-machine execution contract from the specification.
-/

/-! ### Decimal rendering of natural numbers

Models Python's built-in `str` applied to a non-negative integer, as used by
`get_unique_name` (`prefix + str(suffix)`).  Defined with explicit fuel so
that it is executable and kernel-reducible. -/

/-- One pass of decimal rendering: `fuel` bounds the number of digits
produced; with `n < fuel` the rendering is exact. -/
def toDecimalAux : Nat → Nat → List Char
  | 0, _ => []
  | fuel + 1, n =>
      if n < 10 then [Nat.digitChar n]
      else toDecimalAux fuel (n / 10) ++ [Nat.digitChar (n % 10)]

/-- Models Python `str` on a non-negative integer: decimal rendering. -/
def pyStr (n : Nat) : String := ⟨toDecimalAux (n + 1) n⟩

theorem toDecimalAux_fuel_irrel :
    ∀ n f g, n < f → n < g → toDecimalAux f n = toDecimalAux g n := by
  intro n
  induction n using Nat.strong_induction_on with
  | _ n ih =>
    intro f g hf hg
    match f, g with
    | f' + 1, g' + 1 =>
      by_cases h10 : n < 10
      · simp [toDecimalAux, h10]
      · have hdiv : n / 10 < n := Nat.div_lt_self (by omega) (by omega)
        simp only [toDecimalAux, h10, if_false]
        have := ih (n / 10) hdiv f' g' (by omega) (by omega)
        rw [this]

theorem pyStr_data_small {n : Nat} (h : n < 10) :
    (pyStr n).data = [Nat.digitChar n] := by
  simp [pyStr, toDecimalAux, h]

theorem pyStr_data_large {n : Nat} (h : 10 ≤ n) :
    (pyStr n).data = (pyStr (n / 10)).data ++ [Nat.digitChar (n % 10)] := by
  have h10 : ¬ n < 10 := by omega
  have hdiv : n / 10 < n := Nat.div_lt_self (by omega) (by omega)
  show toDecimalAux (n + 1) n = toDecimalAux (n / 10 + 1) (n / 10) ++ [Nat.digitChar (n % 10)]
  rw [show toDecimalAux (n + 1) n
      = if n < 10 then [Nat.digitChar n]
        else toDecimalAux n (n / 10) ++ [Nat.digitChar (n % 10)] from rfl]
  rw [if_neg h10]
  rw [toDecimalAux_fuel_irrel (n / 10) n (n / 10 + 1) (by omega) (by omega)]

/-- Decode a list of decimal digit characters back to a number. -/
def decodeDigits (cs : List Char) : Nat :=
  cs.foldl (fun acc c => 10 * acc + (c.toNat - '0'.toNat)) 0

theorem decodeDigits_aux (cs : List Char) :
    ∀ a, cs.foldl (fun acc c => 10 * acc + (c.toNat - '0'.toNat)) a
      = a * 10 ^ cs.length + decodeDigits cs := by
  induction cs with
  | nil => intro a; simp [decodeDigits]
  | cons c cs ih =>
    intro a
    simp only [List.foldl_cons, decodeDigits, List.length_cons]
    rw [ih (10 * a + (c.toNat - '0'.toNat)), ih (10 * 0 + (c.toNat - '0'.toNat))]
    ring

theorem digitChar_decode {d : Nat} (h : d < 10) :
    (Nat.digitChar d).toNat - '0'.toNat = d := by
  interval_cases d <;> decide

theorem decodeDigits_pyStr (n : Nat) : decodeDigits (pyStr n).data = n := by
  induction n using Nat.strong_induction_on with
  | _ n ih =>
    by_cases h10 : n < 10
    · rw [pyStr_data_small h10]
      simp only [decodeDigits, List.foldl_cons, List.foldl_nil]
      have := digitChar_decode h10
      omega
    · have hge : 10 ≤ n := by omega
      have hdiv : n / 10 < n := Nat.div_lt_self (by omega) (by omega)
      rw [pyStr_data_large hge]
      simp only [decodeDigits, List.foldl_append, List.foldl_cons, List.foldl_nil]
      have hrec := ih (n / 10) hdiv
      simp only [decodeDigits] at hrec
      rw [hrec, digitChar_decode (Nat.mod_lt n (by omega))]
      omega

theorem pyStr_injective : Function.Injective pyStr := by
  intro m n h
  have : decodeDigits (pyStr m).data = decodeDigits (pyStr n).data := by rw [h]
  rwa [decodeDigits_pyStr, decodeDigits_pyStr] at this

theorem string_append_data (a b : String) : (a ++ b).data = a.data ++ b.data := by
  cases a; cases b; rfl

theorem string_append_left_cancel {a b c : String} (h : a ++ b = a ++ c) : b = c := by
  have hd : (a ++ b).data = (a ++ c).data := by rw [h]
  rw [string_append_data, string_append_data] at hd
  have : b.data = c.data := List.append_cancel_left hd
  cases b; cases c; exact congrArg String.mk this

/-! ### `get_unique_name` (src/dagrt/vm/utils.py)

Python source:

    def get_unique_name(prefix, *name_sets):
        def is_in_name_sets(var):
            for name_set in name_sets:
                if var in name_set:
                    return True
            return False
        prefix = str(prefix)
        if not is_in_name_sets(prefix):
            return prefix
        suffix = 0
        while is_in_name_sets(prefix + str(suffix)):
            suffix += 1
        return prefix + str(suffix)

The name sets are modelled as lists of strings.  The unbounded `while` loop
is modelled with explicit fuel; the fuel bound `total size + 1` is proved
adequate below (pigeonhole), so the fallback branch is never reached. -/

/-- Inner helper `is_in_name_sets`: membership of `v` in any of the sets. -/
def is_in_name_sets (name_sets : List (List String)) (v : String) : Bool :=
  name_sets.any (fun name_set => name_set.contains v)

/-- The `while` loop of `get_unique_name`: starting from suffix `k`, probe
`pfx + str(k)`, `pfx + str(k+1)`, ... until one is free, spending one unit
of fuel per probe. -/
def probeSuffix (pfx : String) (name_sets : List (List String)) :
    Nat → Nat → String
  | 0, k => pfx ++ pyStr k
  | fuel + 1, k =>
      if is_in_name_sets name_sets (pfx ++ pyStr k)
      then probeSuffix pfx name_sets fuel (k + 1)
      else pfx ++ pyStr k

/-- Translation of `get_unique_name`: return `pfx` itself when it is free,
otherwise probe suffixes `0, 1, 2, ...`. -/
def get_unique_name (pfx : String) (name_sets : List (List String)) : String :=
  if is_in_name_sets name_sets pfx = false then pfx
  else probeSuffix pfx name_sets ((name_sets.flatten).length + 1) 0

theorem is_in_name_sets_iff (name_sets : List (List String)) (v : String) :
    is_in_name_sets name_sets v = true ↔ v ∈ name_sets.flatten := by
  simp [is_in_name_sets, List.mem_flatten, List.any_eq_true,
    List.contains_iff_exists_mem_beq, beq_iff_eq]

/-- Pigeonhole: among the first `N + 1` candidate suffixes, where `N` is the
total size of the name sets, at least one yields a free name. -/
theorem exists_free_suffix (pfx : String) (name_sets : List (List String)) :
    ∃ k, k ≤ (name_sets.flatten).length ∧
      is_in_name_sets name_sets (pfx ++ pyStr k) = false := by
  by_contra hcon
  push_neg at hcon
  have hall : ∀ k, k ≤ (name_sets.flatten).length →
      is_in_name_sets name_sets (pfx ++ pyStr k) = true := by
    intro k hk
    have := hcon k hk
    revert this
    cases h : is_in_name_sets name_sets (pfx ++ pyStr k) <;> simp
  set N := (name_sets.flatten).length with hN
  have hinj : Function.Injective (fun k : Nat => pfx ++ pyStr k) := by
    intro a b hab
    exact pyStr_injective (string_append_left_cancel hab)
  have hsub : (Finset.range (N + 1)).image (fun k => pfx ++ pyStr k)
      ⊆ (name_sets.flatten).toFinset := by
    intro v hv
    rcases Finset.mem_image.mp hv with ⟨k, hk, rfl⟩
    rw [List.mem_toFinset]
    exact (is_in_name_sets_iff name_sets _).mp
      (hall k (Nat.lt_succ_iff.mp (Finset.mem_range.mp hk)))
  have hcard : N + 1 ≤ (name_sets.flatten).toFinset.card := by
    calc N + 1 = (Finset.range (N + 1)).card := by rw [Finset.card_range]
    _ = ((Finset.range (N + 1)).image (fun k => pfx ++ pyStr k)).card :=
        (Finset.card_image_of_injective _ hinj).symm
    _ ≤ (name_sets.flatten).toFinset.card := Finset.card_le_card hsub
  have hle : (name_sets.flatten).toFinset.card ≤ N := by
    rw [hN]; exact (name_sets.flatten).toFinset_card_le
  omega

/-- Characterization of the probing loop: when some suffix within the fuel
budget is free, the loop returns the first free suffix at or after `k`. -/
theorem probeSuffix_finds (pfx : String) (name_sets : List (List String)) :
    ∀ fuel k, (∃ j, j < fuel ∧ is_in_name_sets name_sets (pfx ++ pyStr (k + j)) = false) →
      ∃ n, probeSuffix pfx name_sets fuel k = pfx ++ pyStr n ∧
        is_in_name_sets name_sets (pfx ++ pyStr n) = false ∧ k ≤ n ∧
        ∀ m, k ≤ m → m < n → is_in_name_sets name_sets (pfx ++ pyStr m) = true := by
  intro fuel
  induction fuel with
  | zero =>
    rintro k ⟨j, hj, _⟩
    omega
  | succ fuel ih =>
    rintro k ⟨j, hj, hfree⟩
    by_cases hk : is_in_name_sets name_sets (pfx ++ pyStr k) = true
    · have hj0 : j ≠ 0 := by
        intro h0
        rw [h0] at hfree
        simp at hfree
        rw [hfree] at hk
        exact Bool.false_ne_true hk
      have hex : ∃ j', j' < fuel ∧
          is_in_name_sets name_sets (pfx ++ pyStr (k + 1 + j')) = false := by
        refine ⟨j - 1, by omega, ?_⟩
        have : k + 1 + (j - 1) = k + j := by omega
        rw [this]
        exact hfree
      rcases ih (k + 1) hex with ⟨n, heq, hfr, hge, hmin⟩
      refine ⟨n, ?_, hfr, by omega, ?_⟩
      · simp only [probeSuffix, hk, if_true]
        exact heq
      · intro m hkm hmn
        rcases Nat.eq_or_lt_of_le hkm with h | h
        · rw [← h]; exact hk
        · exact hmin m (by omega) hmn
    · have hkf : is_in_name_sets name_sets (pfx ++ pyStr k) = false := by
        revert hk
        cases is_in_name_sets name_sets (pfx ++ pyStr k) <;> simp
      refine ⟨k, ?_, hkf, Nat.le_refl k, fun m h1 h2 => by omega⟩
      simp only [probeSuffix, hkf]
      simp

/-- C1: full functional characterization of `get_unique_name`.  When the
given name is free it is returned unchanged; otherwise the returned name is
the name extended with the decimal rendering of the smallest free suffix.
Either way the result extends the given name and is in none of the sets. -/
theorem get_unique_name_spec (pfx : String) (name_sets : List (List String)) :
    ((is_in_name_sets name_sets pfx = false ∧ get_unique_name pfx name_sets = pfx) ∨
      (is_in_name_sets name_sets pfx = true ∧
        ∃ n, get_unique_name pfx name_sets = pfx ++ pyStr n ∧
          is_in_name_sets name_sets (pfx ++ pyStr n) = false ∧
          ∀ m, m < n → is_in_name_sets name_sets (pfx ++ pyStr m) = true)) ∧
    (∃ s, get_unique_name pfx name_sets = pfx ++ s) ∧
    (∀ ns, ns ∈ name_sets → get_unique_name pfx name_sets ∉ ns) := by
  by_cases hp : is_in_name_sets name_sets pfx = false
  · have hres : get_unique_name pfx name_sets = pfx := by
      simp [get_unique_name, hp]
    refine ⟨Or.inl ⟨hp, hres⟩, ⟨"", by rw [hres]; exact (String.append_empty pfx).symm⟩, ?_⟩
    intro ns hns hmem
    rw [hres] at hmem
    have : is_in_name_sets name_sets pfx = true := by
      rw [is_in_name_sets_iff]
      exact List.mem_flatten.mpr ⟨ns, hns, hmem⟩
    rw [hp] at this
    exact Bool.false_ne_true this
  · have hpt : is_in_name_sets name_sets pfx = true := by
      revert hp
      cases is_in_name_sets name_sets pfx <;> simp
    have hres : get_unique_name pfx name_sets
        = probeSuffix pfx name_sets ((name_sets.flatten).length + 1) 0 := by
      simp [get_unique_name, hpt]
    rcases exists_free_suffix pfx name_sets with ⟨k, hk, hkfree⟩
    rcases probeSuffix_finds pfx name_sets ((name_sets.flatten).length + 1) 0
        ⟨k, by omega, by simpa using hkfree⟩ with ⟨n, heq, hfr, _, hmin⟩
    refine ⟨Or.inr ⟨hpt, n, by rw [hres]; exact heq, hfr,
        fun m hm => hmin m (Nat.zero_le m) hm⟩,
      ⟨pyStr n, by rw [hres]; exact heq⟩, ?_⟩
    intro ns hns hmem
    rw [hres, heq] at hmem
    have : is_in_name_sets name_sets (pfx ++ pyStr n) = true := by
      rw [is_in_name_sets_iff]
      exact List.mem_flatten.mpr ⟨ns, hns, hmem⟩
    rw [hfr] at this
    exact Bool.false_ne_true this

/-- C8: the suffix-probing loop of `get_unique_name` terminates: for every
name and every finite collection of finite name sets there is a suffix
(bounded by the total size of the sets) whose decimal rendering yields a
free name, so probing `0, 1, 2, ...` always reaches a free one. -/
theorem get_unique_name_terminates (pfx : String) (name_sets : List (List String)) :
    ∃ n, n ≤ (name_sets.flatten).length ∧
      is_in_name_sets name_sets (pfx ++ pyStr n) = false :=
  exists_free_suffix pfx name_sets

/-! ### `is_state_variable` (src/dagrt/vm/utils.py)

Python source:

    def is_state_variable(var):
        if var == '<t>' or var == '<dt>':
            return True
        elif (var.startswith('<state>')
                or var.startswith('<p>')
                or var.startswith("<ret_time_id>")
                or var.startswith("<ret_time>")
                or var.startswith("<ret_state>")
              ):
            return True
        else:
            return False
-/

/-- Models Python `str.startswith`: the pattern's characters are an initial
segment of the string's characters. -/
def startswith (s pat : String) : Bool := pat.data.isPrefixOf s.data

/-- Translation of `is_state_variable`. -/
def is_state_variable (var : String) : Bool :=
  if var == "<t>" || var == "<dt>" then true
  else if startswith var "<state>"
      || startswith var "<p>"
      || startswith var "<ret_time_id>"
      || startswith var "<ret_time>"
      || startswith var "<ret_state>" then true
  else false

/-- C4: `is_state_variable` is a total, pure classification by literal name
pattern: it holds exactly for the two singletons `<t>` and `<dt>` and for
names extending one of the five persistent-namespace markers, and for no
other name. -/
theorem is_state_variable_spec (var : String) :
    is_state_variable var = true ↔
      (var = "<t>" ∨ var = "<dt>" ∨
        (∃ s, var = "<state>" ++ s) ∨
        (∃ s, var = "<p>" ++ s) ∨
        (∃ s, var = "<ret_time_id>" ++ s) ∨
        (∃ s, var = "<ret_time>" ++ s) ∨
        (∃ s, var = "<ret_state>" ++ s)) := by
  have hpre : ∀ pat : String, startswith var pat = true ↔ ∃ s, var = pat ++ s := by
    intro pat
    rw [startswith, List.isPrefixOf_iff_prefix]
    constructor
    · rintro ⟨t, ht⟩
      refine ⟨⟨t⟩, String.ext ?_⟩
      rw [string_append_data]
      exact ht.symm
    · rintro ⟨s, rfl⟩
      exact ⟨s.data, (string_append_data pat s).symm⟩
  constructor
  · intro h
    by_cases h1 : var == "<t>" || var == "<dt>"
    · rcases Bool.or_eq_true_iff.mp h1 with h2 | h2
      · exact Or.inl (by simpa using h2)
      · exact Or.inr (Or.inl (by simpa using h2))
    · rw [is_state_variable, if_neg h1] at h
      by_cases h2 : startswith var "<state>" || startswith var "<p>"
          || startswith var "<ret_time_id>" || startswith var "<ret_time>"
          || startswith var "<ret_state>"
      · simp only [Bool.or_eq_true_iff] at h2
        rcases h2 with (((ha | hb) | hc) | hd) | he
        · exact Or.inr (Or.inr (Or.inl ((hpre _).mp ha)))
        · exact Or.inr (Or.inr (Or.inr (Or.inl ((hpre _).mp hb))))
        · exact Or.inr (Or.inr (Or.inr (Or.inr (Or.inl ((hpre _).mp hc)))))
        · exact Or.inr (Or.inr (Or.inr (Or.inr (Or.inr (Or.inl ((hpre _).mp hd))))))
        · exact Or.inr (Or.inr (Or.inr (Or.inr (Or.inr (Or.inr ((hpre _).mp he))))))
      · rw [if_neg h2] at h
        exact absurd h Bool.false_ne_true
  · intro h
    rw [is_state_variable]
    rcases h with h | h | h | h | h | h | h
    · rw [h]; rfl
    · rw [h]; rfl
    all_goals {
      by_cases h1 : var == "<t>" || var == "<dt>"
      · rw [if_pos h1]
      · rw [if_neg h1]
        have := (hpre _).mpr h
        simp only [this, Bool.true_or, Bool.or_true, if_true]
    }

/-! ### `resolve_args` (src/dagrt/vm/utils.py)

Python source:

    def resolve_args(arg_names, default_dict, arg_dict):
        arg_dict = arg_dict.copy()
        args = []
        for i, name in enumerate(arg_names):
            if i in arg_dict:
                args.append(arg_dict.pop(i))
                if name in arg_dict:
                    raise TypeError("argument '%d' specified both "
                            "positionally and by keyword" % arg_names[i])
            elif name in arg_dict:
                args.append(arg_dict.pop(name))
            else:
                if name in default_dict:
                    args.append(default_dict[name])
                else:
                    raise TypeError("argument '%s' not specified" % arg_names[i])
        if arg_dict:
            raise TypeError("leftover arguments after argument resolution: "
                    + ", ".join(str(i) for i in arg_dict))
        return args

Python dictionaries are modelled as association lists with the usual
first-match lookup; `pop` removes the entry, `raise TypeError` becomes an
`Except.error` result.  Argument values are modelled as integers. -/

/-- A key of the `arg_dict` passed to `resolve_args`: positional arguments
are keyed by their index, keyword arguments by the argument's name. -/
inductive ArgKey
  | pos (i : Nat)
  | kw (name : String)
deriving DecidableEq

/-- Dictionary lookup (`arg_dict[k]`, first match). -/
def lookupArg : List (ArgKey × Int) → ArgKey → Option Int
  | [], _ => none
  | kv :: rest, k => if kv.1 = k then some kv.2 else lookupArg rest k

/-- Membership test (`k in arg_dict`). -/
def hasKeyArg (d : List (ArgKey × Int)) (k : ArgKey) : Bool :=
  (lookupArg d k).isSome

/-- Key removal, the effect of `arg_dict.pop(k)` on the dictionary. -/
def eraseArg (d : List (ArgKey × Int)) (k : ArgKey) : List (ArgKey × Int) :=
  d.filter (fun kv => !(decide (kv.1 = k)))

/-- Lookup in `default_dict`, which is keyed by argument names. -/
def lookupDefault : List (String × Int) → String → Option Int
  | [], _ => none
  | kv :: rest, n => if kv.1 = n then some kv.2 else lookupDefault rest n

/-- Membership test (`name in default_dict`). -/
def hasKeyDefault (d : List (String × Int)) (n : String) : Bool :=
  (lookupDefault d n).isSome

/-- `args.append(v)` seen functionally: prepend the value resolved at the
current iteration onto the outcome of the remaining iterations. -/
def consArg {α : Type} (v : Int) :
    Except String (List Int) × α → Except String (List Int) × α
  | (Except.ok args, d) => (Except.ok (v :: args), d)
  | (Except.error e, d) => (Except.error e, d)

/-- The `for i, name in enumerate(arg_names)` loop of `resolve_args`,
acting on the private copy of `arg_dict`; returns the resolved values (or
the first error raised) together with the final state of the copy. -/
def resolveLoop (default_dict : List (String × Int)) :
    List String → Nat → List (ArgKey × Int) →
      Except String (List Int) × List (ArgKey × Int)
  | [], _, d => (Except.ok [], d)
  | name :: rest, i, d =>
    match lookupArg d (ArgKey.pos i) with
    | some v =>
      let d1 := eraseArg d (ArgKey.pos i)
      if hasKeyArg d1 (ArgKey.kw name) then
        (Except.error ("argument '" ++ name
          ++ "' specified both positionally and by keyword"), d1)
      else consArg v (resolveLoop default_dict rest (i + 1) d1)
    | none =>
      match lookupArg d (ArgKey.kw name) with
      | some v =>
        consArg v (resolveLoop default_dict rest (i + 1) (eraseArg d (ArgKey.kw name)))
      | none =>
        match lookupDefault default_dict name with
        | some v => consArg v (resolveLoop default_dict rest (i + 1) d)
        | none => (Except.error ("argument '" ++ name ++ "' not specified"), d)

/-- Translation of `resolve_args`: resolve positional and keyword arguments
to a single argument list, applying defaults and failing on duplicate,
missing, or leftover bindings. -/
def resolve_args (arg_names : List String) (default_dict : List (String × Int))
    (arg_dict : List (ArgKey × Int)) : Except String (List Int) :=
  match resolveLoop default_dict arg_names 0 arg_dict with
  | (Except.error e, _) => Except.error e
  | (Except.ok args, d) =>
    if d.isEmpty then Except.ok args
    else Except.error "leftover arguments after argument resolution"

/-- The value the claims predict for the argument at position `i` named
`name`: the positional entry if present, else the keyword entry if present,
else the declared default. -/
def resolvedValue (default_dict : List (String × Int)) (arg_dict : List (ArgKey × Int))
    (i : Nat) (name : String) : Int :=
  match lookupArg arg_dict (ArgKey.pos i) with
  | some v => v
  | none =>
    match lookupArg arg_dict (ArgKey.kw name) with
    | some v => v
    | none => (lookupDefault default_dict name).getD 0

/-- The values the claims predict for the names from position `i` on. -/
def valuesFrom (default_dict : List (String × Int)) (arg_dict : List (ArgKey × Int)) :
    List String → Nat → List Int
  | [], _ => []
  | name :: rest, i =>
    resolvedValue default_dict arg_dict i name
      :: valuesFrom default_dict arg_dict rest (i + 1)

/-- Some name from position `i` on triggers an error against the original
`arg_dict`: either it is supplied both positionally and by keyword, or it is
supplied neither way and has no default. -/
def badAt (default_dict : List (String × Int)) (arg_dict : List (ArgKey × Int)) :
    List String → Nat → Bool
  | [], _ => false
  | name :: rest, i =>
    (hasKeyArg arg_dict (ArgKey.pos i) && hasKeyArg arg_dict (ArgKey.kw name))
    || (!hasKeyArg arg_dict (ArgKey.pos i) && !hasKeyArg arg_dict (ArgKey.kw name)
        && !hasKeyDefault default_dict name)
    || badAt default_dict arg_dict rest (i + 1)

/-- The keys of the original `arg_dict` consumed when resolving the names
from position `i` on: position `i` when the positional entry exists,
otherwise the name's keyword entry if that exists. -/
def consumedFrom (arg_dict : List (ArgKey × Int)) :
    List String → Nat → ArgKey → Bool
  | [], _, _ => false
  | name :: rest, i, k =>
    match lookupArg arg_dict (ArgKey.pos i) with
    | some _ => decide (k = ArgKey.pos i) || consumedFrom arg_dict rest (i + 1) k
    | none =>
      match lookupArg arg_dict (ArgKey.kw name) with
      | some _ => decide (k = ArgKey.kw name) || consumedFrom arg_dict rest (i + 1) k
      | none => consumedFrom arg_dict rest (i + 1) k

/-- Claim condition: some argument is supplied both by its positional index
and by its name. -/
def SuppliedTwice (arg_names : List String) (arg_dict : List (ArgKey × Int)) : Prop :=
  ∃ i, i < arg_names.length ∧ hasKeyArg arg_dict (ArgKey.pos i) = true ∧
    hasKeyArg arg_dict (ArgKey.kw (arg_names.getD i "")) = true

/-- Claim condition: some name has neither a positional entry, nor a keyword
entry, nor a default. -/
def MissingArg (arg_names : List String) (default_dict : List (String × Int))
    (arg_dict : List (ArgKey × Int)) : Prop :=
  ∃ i, i < arg_names.length ∧ hasKeyArg arg_dict (ArgKey.pos i) = false ∧
    hasKeyArg arg_dict (ArgKey.kw (arg_names.getD i "")) = false ∧
    hasKeyDefault default_dict (arg_names.getD i "") = false

/-- Claim condition: after consuming one binding per name, entries remain
unconsumed in `arg_dict`. -/
def Leftover (arg_names : List String) (arg_dict : List (ArgKey × Int)) : Prop :=
  ∃ kv, kv ∈ arg_dict ∧ consumedFrom arg_dict arg_names 0 kv.1 = false

theorem lookupArg_eraseArg_self (d : List (ArgKey × Int)) (k : ArgKey) :
    lookupArg (eraseArg d k) k = none := by
  induction d with
  | nil => rfl
  | cons kv rest ih =>
    by_cases h : kv.1 = k
    · simpa [eraseArg, List.filter_cons, h] using ih
    · simpa [eraseArg, List.filter_cons, h, lookupArg] using ih

theorem lookupArg_eraseArg_ne {k k' : ArgKey} (h : k' ≠ k) (d : List (ArgKey × Int)) :
    lookupArg (eraseArg d k) k' = lookupArg d k' := by
  induction d with
  | nil => rfl
  | cons kv rest ih =>
    by_cases h1 : kv.1 = k
    · have h2 : kv.1 ≠ k' := by rw [h1]; exact fun he => h he.symm
      simp only [eraseArg, List.filter_cons, h1]
      simpa [lookupArg, h2] using ih
    · by_cases h2 : kv.1 = k'
      · simp [eraseArg, List.filter_cons, h1, lookupArg, h2, h]
      · simp only [eraseArg, List.filter_cons, h1]
        simpa [lookupArg, h2] using ih

theorem consArg_error_iff {α : Type} (v : Int) (p : Except String (List Int) × α) :
    (∃ e dd, consArg v p = (Except.error e, dd)) ↔ (∃ e dd, p = (Except.error e, dd)) := by
  rcases p with ⟨res, d⟩
  cases res with
  | ok args =>
    simp [consArg]
  | error e =>
    simp [consArg]

theorem consArg_ok {α : Type} {v : Int} {p : Except String (List Int) × α}
    {args : List Int} {dd : α} (h : consArg v p = (Except.ok args, dd)) :
    ∃ args', p = (Except.ok args', dd) ∧ args = v :: args' := by
  rcases p with ⟨res, d⟩
  cases res with
  | ok args' =>
    simp only [consArg, Prod.mk.injEq] at h
    refine ⟨args', by rw [h.2], ?_⟩
    have h3 := h.1
    injection h3 with h4
    exact h4.symm
  | error e =>
    simp [consArg] at h

theorem kw_ne_pos (name : String) (i : Nat) : ArgKey.kw name ≠ ArgKey.pos i := by
  intro h
  exact ArgKey.noConfusion h

theorem pos_ne_pos {i j : Nat} (h : i ≠ j) : ArgKey.pos i ≠ ArgKey.pos j := by
  intro he
  injection he with h2
  exact h h2

theorem kw_ne_kw {s t : String} (h : s ≠ t) : ArgKey.kw s ≠ ArgKey.kw t := by
  intro he
  apply h
  injection he

/-- Characterization of the resolution loop run on a working dictionary `w`
that agrees with the original `arg_dict` on all positions not yet processed
and all names not yet resolved: the loop errors exactly when some remaining
name is doubly supplied or unsupplied, and on success it returns the
predicted values and consumes exactly the predicted keys. -/
theorem resolveLoop_spec (default_dict : List (String × Int)) (arg_dict : List (ArgKey × Int)) :
    ∀ (rest : List String) (i : Nat) (w : List (ArgKey × Int)),
      rest.Nodup →
      (∀ j, i ≤ j → lookupArg w (ArgKey.pos j) = lookupArg arg_dict (ArgKey.pos j)) →
      (∀ s, s ∈ rest → lookupArg w (ArgKey.kw s) = lookupArg arg_dict (ArgKey.kw s)) →
      ((∃ e dd, resolveLoop default_dict rest i w = (Except.error e, dd)) ↔
        badAt default_dict arg_dict rest i = true) ∧
      (∀ args dd, resolveLoop default_dict rest i w = (Except.ok args, dd) →
        args = valuesFrom default_dict arg_dict rest i ∧
        dd = w.filter (fun kv => !consumedFrom arg_dict rest i kv.1)) := by
  intro rest
  induction rest with
  | nil =>
    intro i w _ _ _
    constructor
    · constructor
      · rintro ⟨e, dd, h⟩
        simp [resolveLoop] at h
      · intro h
        simp [badAt] at h
    · intro args dd h
      simp only [resolveLoop, Prod.mk.injEq] at h
      constructor
      · injection h.1 with h2
        rw [← h2]
        rfl
      · rw [← h.2]
        simp [consumedFrom]
  | cons name rest ih =>
    intro i w hnodup hpos hkw
    have hnd := List.nodup_cons.mp hnodup
    have hposi : lookupArg w (ArgKey.pos i) = lookupArg arg_dict (ArgKey.pos i) :=
      hpos i (Nat.le_refl i)
    have hkwn : lookupArg w (ArgKey.kw name) = lookupArg arg_dict (ArgKey.kw name) :=
      hkw name (List.mem_cons_self name rest)
    cases hpd : lookupArg arg_dict (ArgKey.pos i) with
    | some v =>
      have hw : lookupArg w (ArgKey.pos i) = some v := by rw [hposi, hpd]
      have hd1kw : lookupArg (eraseArg w (ArgKey.pos i)) (ArgKey.kw name)
          = lookupArg arg_dict (ArgKey.kw name) := by
        rw [lookupArg_eraseArg_ne (kw_ne_pos name i) w, hkwn]
      cases hkd : lookupArg arg_dict (ArgKey.kw name) with
      | some v2 =>
        have hkey : hasKeyArg (eraseArg w (ArgKey.pos i)) (ArgKey.kw name) = true := by
          simp [hasKeyArg, hd1kw, hkd]
        have hloop : resolveLoop default_dict (name :: rest) i w
            = (Except.error ("argument '" ++ name
                ++ "' specified both positionally and by keyword"),
               eraseArg w (ArgKey.pos i)) := by
          simp only [resolveLoop, hw, hkey, if_true]
        constructor
        · constructor
          · intro _
            simp [badAt, hasKeyArg, hpd, hkd]
          · intro _
            exact ⟨_, _, hloop⟩
        · intro args dd h
          rw [hloop] at h
          simp at h
      | none =>
        have hkey : hasKeyArg (eraseArg w (ArgKey.pos i)) (ArgKey.kw name) = false := by
          simp [hasKeyArg, hd1kw, hkd]
        have hloop : resolveLoop default_dict (name :: rest) i w
            = consArg v (resolveLoop default_dict rest (i + 1) (eraseArg w (ArgKey.pos i))) := by
          simp only [resolveLoop, hw, hkey, Bool.false_eq_true, if_false]
        have hih := ih (i + 1) (eraseArg w (ArgKey.pos i)) hnd.2
          (fun j hj => by
            rw [lookupArg_eraseArg_ne (pos_ne_pos (by omega)) w]
            exact hpos j (by omega))
          (fun s hs => by
            rw [lookupArg_eraseArg_ne (kw_ne_pos s i) w]
            exact hkw s (List.mem_cons_of_mem name hs))
        constructor
        · rw [hloop, consArg_error_iff, hih.1]
          simp [badAt, hasKeyArg, hpd, hkd]
        · intro args dd h
          rw [hloop] at h
          rcases consArg_ok h with ⟨args', hp, hargs⟩
          rcases (hih.2 args' dd hp) with ⟨ha, hd⟩
          constructor
          · rw [hargs, ha]
            simp [valuesFrom, resolvedValue, hpd]
          · rw [hd, eraseArg, List.filter_filter]
            apply List.filter_congr
            intro kv _
            simp [consumedFrom, hpd, Bool.not_or, Bool.and_comm]
    | none =>
      have hw : lookupArg w (ArgKey.pos i) = none := by rw [hposi, hpd]
      cases hkd : lookupArg arg_dict (ArgKey.kw name) with
      | some v =>
        have hwk : lookupArg w (ArgKey.kw name) = some v := by rw [hkwn, hkd]
        have hloop : resolveLoop default_dict (name :: rest) i w
            = consArg v (resolveLoop default_dict rest (i + 1)
                (eraseArg w (ArgKey.kw name))) := by
          simp only [resolveLoop, hw, hwk]
        have hih := ih (i + 1) (eraseArg w (ArgKey.kw name)) hnd.2
          (fun j hj => by
            rw [lookupArg_eraseArg_ne (fun he => ArgKey.noConfusion he) w]
            exact hpos j (by omega))
          (fun s hs => by
            have hne : s ≠ name := fun he => hnd.1 (he ▸ hs)
            rw [lookupArg_eraseArg_ne (kw_ne_kw hne) w]
            exact hkw s (List.mem_cons_of_mem name hs))
        constructor
        · rw [hloop, consArg_error_iff, hih.1]
          simp [badAt, hasKeyArg, hpd, hkd]
        · intro args dd h
          rw [hloop] at h
          rcases consArg_ok h with ⟨args', hp, hargs⟩
          rcases (hih.2 args' dd hp) with ⟨ha, hd⟩
          constructor
          · rw [hargs, ha]
            simp [valuesFrom, resolvedValue, hpd, hkd]
          · rw [hd, eraseArg, List.filter_filter]
            apply List.filter_congr
            intro kv _
            simp [consumedFrom, hpd, hkd, Bool.not_or, Bool.and_comm]
      | none =>
        have hwk : lookupArg w (ArgKey.kw name) = none := by rw [hkwn, hkd]
        cases hdd : lookupDefault default_dict name with
        | some v =>
          have hloop : resolveLoop default_dict (name :: rest) i w
              = consArg v (resolveLoop default_dict rest (i + 1) w) := by
            simp only [resolveLoop, hw, hwk, hdd]
          have hih := ih (i + 1) w hnd.2
            (fun j hj => hpos j (by omega))
            (fun s hs => hkw s (List.mem_cons_of_mem name hs))
          constructor
          · rw [hloop, consArg_error_iff, hih.1]
            simp [badAt, hasKeyArg, hasKeyDefault, hpd, hkd, hdd]
          · intro args dd h
            rw [hloop] at h
            rcases consArg_ok h with ⟨args', hp, hargs⟩
            rcases (hih.2 args' dd hp) with ⟨ha, hd⟩
            constructor
            · rw [hargs, ha]
              simp [valuesFrom, resolvedValue, hpd, hkd, hdd]
            · rw [hd]
              apply List.filter_congr
              intro kv _
              simp [consumedFrom, hpd, hkd]
        | none =>
          have hloop : resolveLoop default_dict (name :: rest) i w
              = (Except.error ("argument '" ++ name ++ "' not specified"), w) := by
            simp only [resolveLoop, hw, hwk, hdd]
          constructor
          · constructor
            · intro _
              simp [badAt, hasKeyArg, hasKeyDefault, hpd, hkd, hdd]
            · intro _
              exact ⟨_, _, hloop⟩
          · intro args dd h
            rw [hloop] at h
            simp at h

/-- `badAt` holds exactly when some processed name is doubly supplied or
unsupplied with no default. -/
theorem badAt_iff (default_dict : List (String × Int)) (arg_dict : List (ArgKey × Int)) :
    ∀ (rest : List String) (i : Nat),
      badAt default_dict arg_dict rest i = true ↔
        ((∃ j, j < rest.length ∧ hasKeyArg arg_dict (ArgKey.pos (i + j)) = true ∧
            hasKeyArg arg_dict (ArgKey.kw (rest.getD j "")) = true) ∨
          (∃ j, j < rest.length ∧ hasKeyArg arg_dict (ArgKey.pos (i + j)) = false ∧
            hasKeyArg arg_dict (ArgKey.kw (rest.getD j "")) = false ∧
            hasKeyDefault default_dict (rest.getD j "") = false)) := by
  intro rest
  induction rest with
  | nil =>
    intro i
    simp [badAt]
  | cons name rest ih =>
    intro i
    simp only [badAt, Bool.or_eq_true, Bool.and_eq_true, Bool.not_eq_true', ih (i + 1),
      List.length_cons, or_assoc, and_assoc]
    constructor
    · rintro (⟨h1, h2⟩ | ⟨h1, h2, h3⟩ | ⟨j, hj, h1, h2⟩ | ⟨j, hj, h1, h2, h3⟩)
      · exact Or.inl ⟨0, by omega, by simpa using h1, by simpa using h2⟩
      · exact Or.inr ⟨0, by omega, by simpa using h1, by simpa using h2, by simpa using h3⟩
      · refine Or.inl ⟨j + 1, by omega, ?_, ?_⟩
        · have he : i + (j + 1) = i + 1 + j := by omega
          rw [he]
          exact h1
        · simpa using h2
      · refine Or.inr ⟨j + 1, by omega, ?_, ?_, ?_⟩
        · have he : i + (j + 1) = i + 1 + j := by omega
          rw [he]
          exact h1
        · simpa using h2
        · simpa using h3
    · rintro (⟨j, hj, h1, h2⟩ | ⟨j, hj, h1, h2, h3⟩)
      · cases j with
        | zero => exact Or.inl ⟨by simpa using h1, by simpa using h2⟩
        | succ j =>
          refine Or.inr (Or.inr (Or.inl ⟨j, by omega, ?_, ?_⟩))
          · have he : i + 1 + j = i + (j + 1) := by omega
            rw [he]
            exact h1
          · simpa using h2
      · cases j with
        | zero =>
          exact Or.inr (Or.inl ⟨by simpa using h1, by simpa using h2, by simpa using h3⟩)
        | succ j =>
          refine Or.inr (Or.inr (Or.inr ⟨j, by omega, ?_, ?_, ?_⟩))
          · have he : i + 1 + j = i + (j + 1) := by omega
            rw [he]
            exact h1
          · simpa using h2
          · simpa using h3

theorem valuesFrom_length (default_dict : List (String × Int))
    (arg_dict : List (ArgKey × Int)) :
    ∀ (rest : List String) (i : Nat),
      (valuesFrom default_dict arg_dict rest i).length = rest.length := by
  intro rest
  induction rest with
  | nil => intro i; rfl
  | cons name rest ih =>
    intro i
    simp [valuesFrom, ih (i + 1)]

theorem valuesFrom_getD (default_dict : List (String × Int))
    (arg_dict : List (ArgKey × Int)) :
    ∀ (rest : List String) (i j : Nat), j < rest.length →
      (valuesFrom default_dict arg_dict rest i).getD j 0
        = resolvedValue default_dict arg_dict (i + j) (rest.getD j "") := by
  intro rest
  induction rest with
  | nil =>
    intro i j hj
    simp at hj
  | cons name rest ih =>
    intro i j hj
    cases j with
    | zero => simp [valuesFrom]
    | succ j =>
      have he : i + (j + 1) = i + 1 + j := by omega
      simp only [valuesFrom, List.getD_cons_succ, he]
      exact ih (i + 1) j (by simpa using hj)

/-- C2: with pairwise distinct argument names (as argument-name lists are),
`resolve_args` fails exactly when some argument is supplied both
positionally and by keyword, or some argument is supplied neither way and
has no default, or entries of `arg_dict` remain unconsumed; otherwise it
succeeds. -/
theorem resolve_args_error_iff (arg_names : List String)
    (default_dict : List (String × Int)) (arg_dict : List (ArgKey × Int))
    (h : arg_names.Nodup) :
    (∃ e, resolve_args arg_names default_dict arg_dict = Except.error e) ↔
      (SuppliedTwice arg_names arg_dict ∨
        MissingArg arg_names default_dict arg_dict ∨
        Leftover arg_names arg_dict) := by
  have hspec := resolveLoop_spec default_dict arg_dict arg_names 0 arg_dict h
    (fun j _ => rfl) (fun s _ => rfl)
  have hbad := badAt_iff default_dict arg_dict arg_names 0
  simp only [Nat.zero_add] at hbad
  rcases hloop : resolveLoop default_dict arg_names 0 arg_dict with ⟨res, dd⟩
  cases res with
  | error e =>
    have hb : badAt default_dict arg_dict arg_names 0 = true :=
      hspec.1.mp ⟨e, dd, hloop⟩
    constructor
    · intro _
      rcases hbad.mp hb with hs | hm
      · exact Or.inl hs
      · exact Or.inr (Or.inl hm)
    · intro _
      exact ⟨e, by simp [resolve_args, hloop]⟩
  | ok args =>
    rcases hspec.2 args dd hloop with ⟨_, hdd⟩
    have hnb : badAt default_dict arg_dict arg_names 0 = false := by
      rcases hb : badAt default_dict arg_dict arg_names 0 with _ | _
      · rfl
      · rcases hspec.1.mpr hb with ⟨e, dd', he⟩
        rw [hloop] at he
        simp at he
    have hnSM : ¬ (SuppliedTwice arg_names arg_dict ∨
        MissingArg arg_names default_dict arg_dict) := by
      intro hsm
      have := hbad.mpr hsm
      rw [hnb] at this
      exact Bool.false_ne_true this
    have hres : resolve_args arg_names default_dict arg_dict
        = if dd.isEmpty then Except.ok args
          else Except.error "leftover arguments after argument resolution" := by
      simp [resolve_args, hloop]
    constructor
    · rintro ⟨e, he⟩
      rw [hres] at he
      by_cases hemp : dd.isEmpty
      · rw [if_pos hemp] at he
        simp at he
      · refine Or.inr (Or.inr ?_)
        have : ¬ dd = [] := by
          intro hnil
          exact hemp (by rw [hnil]; rfl)
        rw [hdd] at this
        rcases List.exists_mem_of_ne_nil _ this with ⟨kv, hkv⟩
        rcases List.mem_filter.mp hkv with ⟨hmem, hpred⟩
        refine ⟨kv, hmem, ?_⟩
        revert hpred
        cases consumedFrom arg_dict arg_names 0 kv.1 <;> simp
    · intro hor
      rcases hor with hs | hm | hl
      · exact absurd (Or.inl hs) hnSM
      · exact absurd (Or.inr hm) hnSM
      · rcases hl with ⟨kv, hmem, hcons⟩
        have hkv : kv ∈ dd := by
          rw [hdd]
          exact List.mem_filter.mpr ⟨hmem, by rw [hcons]; rfl⟩
        have hemp : dd.isEmpty = false := by
          cases dd with
          | nil => simp at hkv
          | cons a l => rfl
        rw [hres, hemp]
        exact ⟨"leftover arguments after argument resolution", by simp⟩

/-- Closed instance of C2 at a concrete input, discharging the
distinct-names hypothesis. -/
theorem resolve_args_error_iff_witness :
    (["a"] : List String).Nodup ∧
      ((∃ e, resolve_args ["a"] [] [] = Except.error e) ↔
        (SuppliedTwice ["a"] [] ∨ MissingArg ["a"] [] [] ∨ Leftover ["a"] [])) :=
  ⟨by decide, resolve_args_error_iff ["a"] [] [] (by decide)⟩

/-- C3: with pairwise distinct argument names, a successful `resolve_args`
returns one value per name, in order: the positional entry if present, else
the keyword entry if present, else the declared default. -/
theorem resolve_args_success (arg_names : List String)
    (default_dict : List (String × Int)) (arg_dict : List (ArgKey × Int))
    (args : List Int) (hnd : arg_names.Nodup)
    (hok : resolve_args arg_names default_dict arg_dict = Except.ok args) :
    args.length = arg_names.length ∧
      ∀ i, i < arg_names.length →
        args.getD i 0 = resolvedValue default_dict arg_dict i (arg_names.getD i "") := by
  have hspec := resolveLoop_spec default_dict arg_dict arg_names 0 arg_dict hnd
    (fun j _ => rfl) (fun s _ => rfl)
  rcases hloop : resolveLoop default_dict arg_names 0 arg_dict with ⟨res, dd⟩
  cases res with
  | error e =>
    rw [resolve_args, hloop] at hok
    simp at hok
  | ok args' =>
    rcases hspec.2 args' dd hloop with ⟨ha, _⟩
    have hres : resolve_args arg_names default_dict arg_dict
        = if dd.isEmpty then Except.ok args'
          else Except.error "leftover arguments after argument resolution" := by
      simp [resolve_args, hloop]
    rw [hres] at hok
    by_cases hemp : dd.isEmpty
    · rw [if_pos hemp] at hok
      have hargs : args = valuesFrom default_dict arg_dict arg_names 0 := by
        injection hok with h2
        rw [← h2, ha]
      constructor
      · rw [hargs, valuesFrom_length]
      · intro i hi
        rw [hargs]
        have := valuesFrom_getD default_dict arg_dict arg_names 0 i hi
        simpa using this
    · rw [if_neg hemp] at hok
      simp at hok

/-- Closed instance of C3 at a concrete input: `resolve_args` with names
`x, y`, positional entry for `x` and a default for `y`. -/
theorem resolve_args_success_witness :
    (["x", "y"] : List String).Nodup ∧
      resolve_args ["x", "y"] [("y", 7)] [(ArgKey.pos 0, 3)] = Except.ok [3, 7] ∧
      ([3, 7] : List Int).length = (["x", "y"] : List String).length ∧
      (∀ i, i < (["x", "y"] : List String).length →
        ([3, 7] : List Int).getD i 0
          = resolvedValue [("y", 7)] [(ArgKey.pos 0, 3)] i ((["x", "y"] : List String).getD i "")) :=
  ⟨by decide, by rfl,
    resolve_args_success ["x", "y"] [("y", 7)] [(ArgKey.pos 0, 3)] [3, 7] (by decide) (by rfl)⟩

/-! ### Frame property of `resolve_args` (src/dagrt/vm/utils.py)

To state that `resolve_args` does not mutate its caller's dictionaries, the
Python object store is made explicit: dictionaries live in a heap and are
passed by reference.  The function body is re-translated at this level,
line by line: `arg_dict = arg_dict.copy()` allocates a fresh reference
holding a copy of the caller's dictionary, every `pop` writes through the
copy's reference, and `default_dict` is only ever read. -/

/-- Reference lookup in a store. -/
def lookupRef {α : Type} : List (Nat × α) → Nat → Option α
  | [], _ => none
  | p :: rest, r => if p.1 = r then some p.2 else lookupRef rest r

/-- In-place update of the object behind reference `r`. -/
def setRef {α : Type} (store : List (Nat × α)) (r : Nat) (v : α) : List (Nat × α) :=
  store.map (fun p => if p.1 = r then (r, v) else p)

/-- Largest reference in use. -/
def maxRef {α : Type} : List (Nat × α) → Nat
  | [] => 0
  | p :: rest => max p.1 (maxRef rest)

/-- A reference distinct from every allocated one. -/
def freshRef {α : Type} (store : List (Nat × α)) : Nat := maxRef store + 1

/-- The Python object store: dictionaries of both kinds, by reference. -/
structure PyHeap where
  argStore : List (Nat × List (ArgKey × Int))
  defStore : List (Nat × List (String × Int))

/-- The resolution loop at the heap level: reads the working copy through
`wRef`, writes every `pop` back through `wRef`, reads defaults through
`defRef`. -/
def resolveLoopHeap (defRef wRef : Nat) :
    List String → Nat → PyHeap → Except String (List Int) × PyHeap
  | [], _, h => (Except.ok [], h)
  | name :: rest, i, h =>
    let w := (lookupRef h.argStore wRef).getD []
    let dflt := (lookupRef h.defStore defRef).getD []
    match lookupArg w (ArgKey.pos i) with
    | some v =>
      let w1 := eraseArg w (ArgKey.pos i)
      let h1 : PyHeap := { h with argStore := setRef h.argStore wRef w1 }
      if hasKeyArg w1 (ArgKey.kw name) then
        (Except.error ("argument '" ++ name
          ++ "' specified both positionally and by keyword"), h1)
      else consArg v (resolveLoopHeap defRef wRef rest (i + 1) h1)
    | none =>
      match lookupArg w (ArgKey.kw name) with
      | some v =>
        consArg v (resolveLoopHeap defRef wRef rest (i + 1)
          { h with argStore := setRef h.argStore wRef (eraseArg w (ArgKey.kw name)) })
      | none =>
        match lookupDefault dflt name with
        | some v => consArg v (resolveLoopHeap defRef wRef rest (i + 1) h)
        | none => (Except.error ("argument '" ++ name ++ "' not specified"), h)

/-- Heap-level translation of `resolve_args`: the caller passes references
to its `arg_dict` and `default_dict`; the body first copies `arg_dict` into
a fresh reference and then works only through that copy. -/
def resolve_args_heap (arg_names : List String) (defRef argRef : Nat)
    (h : PyHeap) : Except String (List Int) × PyHeap :=
  let d := (lookupRef h.argStore argRef).getD []
  let wRef := freshRef h.argStore
  let h1 : PyHeap := { h with argStore := (wRef, d) :: h.argStore }
  match resolveLoopHeap defRef wRef arg_names 0 h1 with
  | (Except.error e, h2) => (Except.error e, h2)
  | (Except.ok args, h2) =>
    if ((lookupRef h2.argStore wRef).getD []).isEmpty then (Except.ok args, h2)
    else (Except.error "leftover arguments after argument resolution", h2)

theorem lookupRef_setRef_ne {α : Type} {r r' : Nat} (h : r' ≠ r)
    (store : List (Nat × α)) (v : α) :
    lookupRef (setRef store r v) r' = lookupRef store r' := by
  induction store with
  | nil => rfl
  | cons p rest ih =>
    by_cases h1 : p.1 = r
    · have h2 : r ≠ r' := fun he => h he.symm
      simp only [setRef, List.map_cons, h1, if_true]
      simp only [lookupRef, h2, if_false]
      have h3 : p.1 ≠ r' := by rw [h1]; exact h2
      simp only [h3, if_false]
      exact ih
    · simp only [setRef, List.map_cons, h1, if_false]
      by_cases h2 : p.1 = r'
      · simp only [lookupRef, h2, if_true]
      · simp only [lookupRef, h2, if_false]
        exact ih

theorem lookupRef_le_maxRef {α : Type} {store : List (Nat × α)} {r : Nat}
    (h : (lookupRef store r).isSome = true) : r ≤ maxRef store := by
  induction store with
  | nil => simp [lookupRef] at h
  | cons p rest ih =>
    by_cases h1 : p.1 = r
    · rw [← h1]
      exact Nat.le_trans (Nat.le_max_left p.1 (maxRef rest)) (Nat.le_refl _)
    · simp only [lookupRef, h1, if_false] at h
      exact Nat.le_trans (ih h) (Nat.le_max_right p.1 (maxRef rest))

theorem consArg_snd {α : Type} (v : Int) (p : Except String (List Int) × α) :
    (consArg v p).2 = p.2 := by
  rcases p with ⟨res, d⟩
  cases res <;> rfl

/-- The heap-level loop writes only through the working-copy reference: the
default store is untouched and every other argument-dictionary reference
keeps its value. -/
theorem resolveLoopHeap_frame (defRef wRef : Nat) :
    ∀ (rest : List String) (i : Nat) (h : PyHeap),
      (resolveLoopHeap defRef wRef rest i h).2.defStore = h.defStore ∧
      ∀ r, r ≠ wRef →
        lookupRef (resolveLoopHeap defRef wRef rest i h).2.argStore r
          = lookupRef h.argStore r := by
  intro rest
  induction rest with
  | nil =>
    intro i h
    exact ⟨rfl, fun r _ => rfl⟩
  | cons name rest ih =>
    intro i h
    simp only [resolveLoopHeap]
    cases hp : lookupArg ((lookupRef h.argStore wRef).getD []) (ArgKey.pos i) with
    | some v =>
      by_cases hkey : hasKeyArg (eraseArg ((lookupRef h.argStore wRef).getD [])
          (ArgKey.pos i)) (ArgKey.kw name)
      · simp only [hp, hkey, if_true]
        exact ⟨by trivial, fun r hr => lookupRef_setRef_ne hr h.argStore _⟩
      · simp only [hp, hkey, Bool.false_eq_true, if_false]
        have hrec := ih (i + 1)
          { h with argStore := setRef h.argStore wRef (eraseArg
              ((lookupRef h.argStore wRef).getD []) (ArgKey.pos i)) }
        rw [consArg_snd]
        refine ⟨hrec.1, fun r hr => ?_⟩
        rw [hrec.2 r hr]
        exact lookupRef_setRef_ne hr h.argStore _
    | none =>
      cases hk : lookupArg ((lookupRef h.argStore wRef).getD []) (ArgKey.kw name) with
      | some v =>
        simp only [hp, hk]
        have hrec := ih (i + 1)
          { h with argStore := setRef h.argStore wRef (eraseArg
              ((lookupRef h.argStore wRef).getD []) (ArgKey.kw name)) }
        rw [consArg_snd]
        refine ⟨hrec.1, fun r hr => ?_⟩
        rw [hrec.2 r hr]
        exact lookupRef_setRef_ne hr h.argStore _
      | none =>
        cases hd : lookupDefault ((lookupRef h.defStore defRef).getD []) name with
        | some v =>
          simp only [hp, hk, hd]
          have hrec := ih (i + 1) h
          rw [consArg_snd]
          exact ⟨hrec.1, fun r hr => hrec.2 r hr⟩
        | none =>
          simp only [hp, hk, hd]
          exact ⟨by trivial, fun r hr => by trivial⟩

/-- C10: `resolve_args` never mutates its caller's inputs.  At the explicit
object-store level, whether the call returns values or an error, the
dictionary behind the caller's `arg_dict` reference and the whole default
store (hence `default_dict`) are unchanged afterwards: the body pops only
from its private copy and only reads `default_dict`. -/
theorem resolve_args_heap_frame (arg_names : List String) (defRef argRef : Nat)
    (h : PyHeap) (halloc : (lookupRef h.argStore argRef).isSome = true) :
    lookupRef (resolve_args_heap arg_names defRef argRef h).2.argStore argRef
        = lookupRef h.argStore argRef ∧
      (resolve_args_heap arg_names defRef argRef h).2.defStore = h.defStore := by
  have hne : argRef ≠ freshRef h.argStore := by
    have := lookupRef_le_maxRef halloc
    simp only [freshRef]
    omega
  set wRef := freshRef h.argStore with hw
  set h1 : PyHeap := { h with argStore :=
    (wRef, (lookupRef h.argStore argRef).getD []) :: h.argStore } with hh1
  have h1arg : lookupRef h1.argStore argRef = lookupRef h.argStore argRef := by
    simp only [hh1, lookupRef]
    rw [if_neg (fun he => hne he.symm)]
  have hframe := resolveLoopHeap_frame defRef wRef arg_names 0 h1
  have hres : resolve_args_heap arg_names defRef argRef h
      = match resolveLoopHeap defRef wRef arg_names 0 h1 with
        | (Except.error e, h2) => (Except.error e, h2)
        | (Except.ok args, h2) =>
          if ((lookupRef h2.argStore wRef).getD []).isEmpty then (Except.ok args, h2)
          else (Except.error "leftover arguments after argument resolution", h2) := rfl
  rcases hloop : resolveLoopHeap defRef wRef arg_names 0 h1 with ⟨res, h2⟩
  rw [hloop] at hframe
  have harg2 : lookupRef h2.argStore argRef = lookupRef h.argStore argRef := by
    rw [hframe.2 argRef hne, h1arg]
  have hdef2 : h2.defStore = h.defStore := hframe.1
  cases res with
  | error e =>
    rw [hres, hloop]
    exact ⟨harg2, hdef2⟩
  | ok args =>
    rw [hres, hloop]
    by_cases hemp : ((lookupRef h2.argStore wRef).getD []).isEmpty
    · simp only [hemp, if_true]
      exact ⟨harg2, hdef2⟩
    · simp only [hemp, Bool.false_eq_true, if_false]
      exact ⟨harg2, hdef2⟩

/-- Closed instance of C10 at a concrete heap, discharging the hypothesis
that the caller's `arg_dict` reference is allocated. -/
theorem resolve_args_heap_frame_witness :
    (lookupRef (PyHeap.mk [(1, [(ArgKey.pos 0, 4)])] [(2, [("a", 5)])]).argStore 1).isSome
        = true ∧
      (lookupRef (resolve_args_heap ["a"] 2 1
          (PyHeap.mk [(1, [(ArgKey.pos 0, 4)])] [(2, [("a", 5)])])).2.argStore 1
        = lookupRef (PyHeap.mk [(1, [(ArgKey.pos 0, 4)])] [(2, [("a", 5)])]).argStore 1 ∧
      (resolve_args_heap ["a"] 2 1
          (PyHeap.mk [(1, [(ArgKey.pos 0, 4)])] [(2, [("a", 5)])])).2.defStore
        = (PyHeap.mk [(1, [(ArgKey.pos 0, 4)])] [(2, [("a", 5)])]).defStore) :=
  ⟨rfl, resolve_args_heap_frame ["a"] 2 1
    (PyHeap.mk [(1, [(ArgKey.pos 0, 4)])] [(2, [("a", 5)])]) rfl⟩

/-! ### Execution core, modelled from the specification

The instruction graph, program/state machine, code generator and execution
contract (`leap.vm.language`, `leap.vm.codegen` and the generated stepper)
are exercised by `src/test/test_codegen_python.py` but their sources are not
part of the repository slice; the definitions below model them from the
specification (sections 3, 4.2, 4.3, 4.4 of the spec). -/

/-- Modelled from the spec: the symbolic expression collaborator is out of
scope; a minimal expression algebra (integer constants, variable reads,
addition) covers the expressions the exercised programs use. -/
inductive Expr
  | const (n : Int)
  | var (name : String)
  | add (a b : Expr)
deriving DecidableEq

/-- Variable lookup in the stepper's mutable environment (absent variables
read as 0; the exercised programs never read an unassigned variable). -/
def lookupEnv : List (String × Int) → String → Int
  | [], _ => 0
  | p :: rest, n => if p.1 = n then p.2 else lookupEnv rest n

/-- Store a variable, replacing any previous binding. -/
def setEnv (env : List (String × Int)) (n : String) (v : Int) : List (String × Int) :=
  (n, v) :: env.filter (fun p => !(decide (p.1 = n)))

/-- Evaluate an expression against an environment. -/
def evalExpr (env : List (String × Int)) : Expr → Int
  | Expr.const n => n
  | Expr.var s => lookupEnv env s
  | Expr.add a b => evalExpr env a + evalExpr env b

/-- Modelled from the spec (section 3, missing `leap.vm.language`): the
instruction variants of the IR.  `assign` is `AssignExpression`, `emit` is
`YieldState`, `cond` is `If`, `abortStep` is `FailStep`, `raiseError` is
`Raise`. -/
inductive InstrBody
  | assign (assignee : String) (expression : Expr)
  | emit (time : Int) (time_id : String) (expression : Expr) (component_id : String)
  | cond (condition : Expr) (then_depends_on else_depends_on : List String)
  | abortStep
  | raiseError (kind message : String)
deriving DecidableEq

/-- Modelled from the spec: an IR node with id, variant and dependencies. -/
structure Instruction where
  id : String
  body : InstrBody
  depends_on : List String
deriving DecidableEq

/-- Modelled from the spec (section 6, missing generated-stepper events):
the observable events and failure signals of a run. -/
inductive Event
  | emitted (component_id time_id : String) (time value : Int)
  | stateCompleted (state_name : String)
  | stepFailed
  | raised (kind message : String)
deriving DecidableEq

/-- Modelled from the spec: a named state's root dependency set and its
declared successor. -/
structure ProgramState where
  root_ids : List String
  next_state : String
deriving DecidableEq

/-- Modelled from the spec (missing `TimeIntegratorCode`): the committed
instruction set, the named states and the initial state. -/
structure Program where
  instructions : List Instruction
  states : List (String × ProgramState)
  initial_state : String
deriving DecidableEq

/-- Modelled from the spec (section 4.2, missing
`TimeIntegratorCode.create_with_init_and_step`): a two-state program,
`"initialization"` rooted at the first dependency set with successor
`"primary"`, and `"primary"` rooted at the second, self-looping. -/
def create_with_init_and_step (initialization_dep_on : List String)
    (instructions : List Instruction) (step_dep_on : List String) : Program :=
  { instructions := instructions,
    states := [("initialization", ⟨initialization_dep_on, "primary"⟩),
               ("primary", ⟨step_dep_on, "primary"⟩)],
    initial_state := "initialization" }

/-- Find an instruction by id. -/
def findInstr (instrs : List Instruction) (id : String) : Option Instruction :=
  instrs.find? (fun ins => ins.id = id)

/-- Outcome of executing part of a state's schedule. -/
inductive ExecResult
  | ok (env : List (String × Int)) (events : List Event) (done : List String)
  | abort (env : List (String × Int)) (events : List Event)
  | fatal (kind message : String) (events : List Event)
deriving DecidableEq

/-- Modelled from the spec (section 4.3, missing code generator /
scheduler): execute a list of instruction ids in dependency order — each
instruction runs after its `depends_on`, at most once per state execution;
conditionals run only the selected arm; `abortStep` unwinds the remaining
schedule recoverably, `raiseError` fatally.  The fuel argument bounds the
traversal; it is chosen large enough for the (acyclic) programs below. -/
def execSeq (instrs : List Instruction) :
    Nat → List String → List (String × Int) → List Event → List String → ExecResult
  | 0, _, env, evs, done => ExecResult.ok env evs done
  | _ + 1, [], env, evs, done => ExecResult.ok env evs done
  | fuel + 1, id :: rest, env, evs, done =>
    if done.contains id then execSeq instrs fuel rest env evs done
    else
      match findInstr instrs id with
      | none => execSeq instrs fuel rest env evs (id :: done)
      | some ins =>
        match execSeq instrs fuel ins.depends_on env evs (id :: done) with
        | ExecResult.ok env1 evs1 done1 =>
          match ins.body with
          | InstrBody.assign a e =>
            execSeq instrs fuel rest (setEnv env1 a (evalExpr env1 e)) evs1 done1
          | InstrBody.emit t tid e cid =>
            execSeq instrs fuel rest env1
              (evs1 ++ [Event.emitted cid tid t (evalExpr env1 e)]) done1
          | InstrBody.cond c thn els =>
            match execSeq instrs fuel (if evalExpr env1 c ≠ 0 then thn else els)
                env1 evs1 done1 with
            | ExecResult.ok env2 evs2 done2 => execSeq instrs fuel rest env2 evs2 done2
            | r => r
          | InstrBody.abortStep => ExecResult.abort env1 evs1
          | InstrBody.raiseError k m => ExecResult.fatal k m evs1
        | r => r

/-- The running stepper: its mutable variables and the current state. -/
structure MethodState where
  env : List (String × Int)
  current : String
deriving DecidableEq

/-- State lookup by name. -/
def lookupState : List (String × ProgramState) → String → Option ProgramState
  | [], _ => none
  | p :: rest, n => if p.1 = n then some p.2 else lookupState rest n

/-- Traversal fuel bound for one state execution. -/
def stepFuel (p : Program) : Nat :=
  (p.instructions.length + 1) * (p.instructions.length + 1)

/-- Modelled from the spec (section 4.4, missing generated
`run_single_step`): execute the current state's schedule to completion,
yielding its emitted events followed by `stateCompleted` and advancing to
the successor state; on `abortStep` yield `stepFailed` and keep the current
state; on `raiseError` yield `raised` and terminate the run (`none`). -/
def run_single_step (p : Program) (s : MethodState) : List Event × Option MethodState :=
  match lookupState p.states s.current with
  | none => ([], none)
  | some ps =>
    match execSeq p.instructions (stepFuel p) ps.root_ids s.env [] [] with
    | ExecResult.ok env evs _ =>
      (evs ++ [Event.stateCompleted s.current], some ⟨env, ps.next_state⟩)
    | ExecResult.abort env evs =>
      (evs ++ [Event.stepFailed], some ⟨env, s.current⟩)
    | ExecResult.fatal k m evs =>
      (evs ++ [Event.raised k m], none)

/-- Modelled from the spec (section 4.4, missing generated `set_up`):
seed the time and step-size singletons and the persistent context, and
enter the program's initial state. -/
def set_up (p : Program) (t_start dt_start : Int) (context : List (String × Int)) :
    MethodState :=
  ⟨("<t>", t_start) :: ("<dt>", dt_start) :: context, p.initial_state⟩

/-- Modelled from the spec (section 4.4, missing generated `run`): iterate
`run_single_step` up to `max_steps` times, stopping early when a fatal
error terminates the sequence. -/
def runEvents (p : Program) : Nat → MethodState → List Event
  | 0, _ => []
  | n + 1, s =>
    match run_single_step p s with
    | (evs, none) => evs
    | (evs, some s2) => evs ++ runEvents p n s2

/-- A character legal in a generated identifier. -/
def isLegalIdentChar (c : Char) : Bool := c.isAlphanum || c == '_'

/-- Modelled from the spec (section 4.3 step 3, missing name manager):
sanitize a natural name by replacing illegal characters. -/
def sanitize (s : String) : String :=
  ⟨s.data.map (fun c => if isLegalIdentChar c then c else '_')⟩

/-- A name whose natural form is already a legal identifier. -/
def isLegalIdent (s : String) : Bool :=
  !s.data.isEmpty && s.data.all isLegalIdentChar && !(s.data.headD '_').isDigit

/-- Modelled from the spec (section 4.3 step 3, missing name manager): map
one referenced name to a target-legal identifier — keep a legal unused
natural form, otherwise sanitize and probe suffixes via the repository's
`get_unique_name`. -/
def assignIdentifier (used : List String) (name : String) : String :=
  if isLegalIdent name && !used.contains name then name
  else get_unique_name (sanitize name) [used]

/-- Assign identifiers to the names of one namespace in order, each seeing
the identifiers already generated. -/
def assignIdentifiers : List String → List String → List String
  | [], _ => []
  | n :: rest, used =>
    let ident := assignIdentifier used n
    ident :: assignIdentifiers rest (ident :: used)

/-- The program of `test_basic_codegen`: an empty initialization root set
and a step rooted at a single `Emit` of the constant 0. -/
def basicProg : Program :=
  create_with_init_and_step []
    [⟨"return", InstrBody.emit 0 "final" (Expr.const 0) "<state>", []⟩]
    ["return"]

/-- C6: running the two-state program whose step is a single `Emit` for two
steps after `set_up` produces exactly three events, in order: completion of
`"initialization"`, the emitted value, completion of `"primary"`. -/
theorem basicProg_run_events :
    runEvents basicProg 2 (set_up basicProg 0 0 [])
      = [Event.stateCompleted "initialization",
         Event.emitted "<state>" "final" 0 0,
         Event.stateCompleted "primary"] := by
  rfl

/-- The program of `test_basic_raise_codegen`, generalized over the error's
kind and message: the step root is a single `RaiseError`. -/
def raiseProg (kind message : String) : Program :=
  create_with_init_and_step []
    [⟨"raise", InstrBody.raiseError kind message, []⟩]
    ["raise"]

/-- C7: executing the step of a program whose step root is
`RaiseError{kind, message}` surfaces exactly `raised kind message`, and for
any step budget the run's event sequence ends there with no further
events. -/
theorem raiseProg_run_events (kind message : String) (n : Nat) :
    runEvents (raiseProg kind message) (n + 2)
        (set_up (raiseProg kind message) 0 0 [])
      = [Event.stateCompleted "initialization", Event.raised kind message] := by
  rfl

/-- The program of `test_basic_fail_step_codegen`: the `"primary"` state is
rooted at a single `AbortStep`. -/
def failProg : Program :=
  create_with_init_and_step [] [⟨"fail", InstrBody.abortStep, []⟩] ["fail"]

/-- C5 counterexample: the claim says every call to `run_single_step`
yields `stepFailed` and never `stateCompleted`; but the first call executes
the `"initialization"` state and yields exactly `stateCompleted
"initialization"` and no `stepFailed` (the test indeed runs the
initialization step successfully before expecting failures). -/
theorem failProg_first_call_completes :
    (run_single_step failProg (set_up failProg 0 0 [])).1
        = [Event.stateCompleted "initialization"] ∧
      Event.stepFailed ∉ (run_single_step failProg (set_up failProg 0 0 [])).1 := by
  constructor
  · rfl
  · intro h
    simp [run_single_step, set_up, failProg, create_with_init_and_step,
      lookupState, execSeq, stepFuel] at h

/-- C5 as amended: once the initialization call has completed (after which
the current state is `"primary"`), every call to `run_single_step` yields
exactly `stepFailed`, never `stateCompleted`, and leaves the stepper in the
same state, so the caller may retry. -/
theorem failProg_primary_always_fails :
    (∀ env : List (String × Int),
      run_single_step failProg ⟨env, "primary"⟩
        = ([Event.stepFailed], some ⟨env, "primary"⟩)) ∧
    (run_single_step failProg (set_up failProg 0 0 [])).2
      = some ⟨[("<t>", 0), ("<dt>", 0)], "primary"⟩ := by
  constructor
  · intro env
    rfl
  · rfl

/-- The program of `test_local_name_distinctness`: two transient locals
`y^` and `y*` assigned in the same state, and an `Emit` of their sum. -/
def localNamesProg : Program :=
  create_with_init_and_step []
    [⟨"assign_y^", InstrBody.assign "y^" (Expr.const 1), []⟩,
     ⟨"assign_y*", InstrBody.assign "y*" (Expr.const 0), []⟩,
     ⟨"return", InstrBody.emit 0 "final"
        (Expr.add (Expr.var "y^") (Expr.var "y*")) "y",
        ["assign_y^", "assign_y*"]⟩]
    ["return"]

/-- C9: the locals `y^` and `y*` of one state are assigned distinct
generated identifiers by the name-assignment strategy, and they evaluate
independently: with `y^ := 1` and `y* := 0`, emitting `y^ + y*` yields the
value 1. -/
theorem local_names_distinct_and_independent :
    (assignIdentifiers ["y^", "y*"] []).getD 0 ""
        ≠ (assignIdentifiers ["y^", "y*"] []).getD 1 "" ∧
      (assignIdentifiers ["y^", "y*"] []).length = 2 ∧
      runEvents localNamesProg 2 (set_up localNamesProg 0 0 [])
        = [Event.stateCompleted "initialization",
           Event.emitted "y" "final" 0 1,
           Event.stateCompleted "primary"] := by
  refine ⟨by decide, by decide, by rfl⟩
